import Mathlib

/-!
Verification of core routines of `monai/data/image_writer.py`:
`ImageWriter.convert_to_channel_last`, `ImageWriter.convert_to_target_affine`,
`ITKWriter.ras_to_lps`, `ITKWriter.create_backend_obj` (geometry decomposition)
and `PILWriter.resample_and_clip`.

Arrays are embedded as a shape together with a total indexing function
(the function is only meaningful on indices that are valid for the shape;
numpy views such as `moveaxis` and basic slicing are exactly such
re-indexing functions).  Numeric values are exact rationals.
-/

/-- Shallow embedding of a numpy `ndarray`: a shape plus an indexing
function (junk values outside the valid index range). -/
structure NArr (α : Type) where
  shape : List ℕ
  get : List ℕ → α

namespace NArr

/-- An index is valid for a shape when it has the same length and is
pointwise below the shape. -/
def validIdx (shape idx : List ℕ) : Bool :=
  idx.length == shape.length && (idx.zip shape).all fun p => p.1 < p.2

/-- Extensional equality of arrays: equal shapes and equal values at every
valid index (the indexing functions may differ on junk indices). -/
def Equiv (a b : NArr α) : Prop :=
  a.shape = b.shape ∧ ∀ idx, validIdx a.shape idx = true → a.get idx = b.get idx

/-- `np.moveaxis(a, c, -1)`: move axis `c` to the last position
(meaningful for `c < a.shape.length`). -/
def moveaxisLast (a : NArr α) (c : ℕ) : NArr α :=
  ⟨a.shape.eraseIdx c ++ [a.shape.getD c 1],
   fun idx => a.get (List.insertIdx c (idx.getLastD 0) idx.dropLast)⟩

/-- `np.moveaxis(a, -1, c)`: move the last axis to position `c`. -/
def moveaxisFromLast (a : NArr α) (c : ℕ) : NArr α :=
  ⟨List.insertIdx c (a.shape.getLastD 1) a.shape.dropLast,
   fun idx => a.get (idx.eraseIdx c ++ [idx.getD c 0])⟩

/-- `np.moveaxis(a, -1, 0)`. -/
def moveLastToFront (a : NArr α) : NArr α := moveaxisFromLast a 0

/-- `np.moveaxis(a, 0, -1)`. -/
def moveFrontToLast (a : NArr α) : NArr α := moveaxisLast a 0

/-- `a[..., None]`: append a new axis of length 1. -/
def expandLast (a : NArr α) : NArr α :=
  ⟨a.shape ++ [1], fun idx => a.get idx.dropLast⟩

/-- `a[..., None, :]`: insert a new axis of length 1 just before the last
axis. -/
def insertBeforeLast (a : NArr α) : NArr α :=
  ⟨List.insertIdx (a.shape.length - 1) 1 a.shape,
   fun idx => a.get (idx.eraseIdx (idx.length - 2))⟩

/-- `a[..., 0, :]`: take the 0th slice of the axis just before the last
axis. -/
def removeBeforeLast (a : NArr α) : NArr α :=
  ⟨a.shape.eraseIdx (a.shape.length - 2),
   fun idx => a.get (List.insertIdx (idx.length - 1) 0 idx)⟩

/-- `np.squeeze(a, -1)`: drop the last axis (meaningful when it has
length 1). -/
def squeezeLast (a : NArr α) : NArr α :=
  ⟨a.shape.dropLast, fun idx => a.get (idx ++ [0])⟩

/-- `a[None]` / `tensor.unsqueeze(0)`: prepend a new axis of length 1. -/
def expandFront (a : NArr α) : NArr α :=
  ⟨1 :: a.shape, fun idx => a.get idx.tail⟩

/-- `a[0]`: take the 0th slice of the first axis. -/
def takeFront0 (a : NArr α) : NArr α :=
  ⟨a.shape.tail, fun idx => a.get (0 :: idx)⟩

/-- `np.ascontiguousarray`: a value-level no-op (memory layout only). -/
def ascontig (a : NArr α) : NArr α := a

/-- Apply a function to every element (used for `np.clip` on arrays). -/
def mapVals (f : α → β) (a : NArr α) : NArr β :=
  ⟨a.shape, fun idx => f (a.get idx)⟩

end NArr

open NArr

/-- Iterate an array operation a fixed number of times (embeds the
`while` loops of `convert_to_channel_last`, whose iteration counts are
determined by the rank). -/
def iterOp (f : NArr α → NArr α) : ℕ → NArr α → NArr α
  | 0, a => a
  | k + 1, a => iterOp f k (f a)

/-- The trailing-squeeze loop of `convert_to_channel_last` (line 407):
`while squeeze_end_dims and data.shape[-1] == 1: data = np.squeeze(data, -1)`.
Reading `data.shape[-1]` on a rank-0 array raises an `IndexError`
("tuple index out of range"), which the embedding surfaces as `.error`. -/
def squeezeLoop (a : NArr α) : Except String (NArr α) :=
  if h : a.shape = [] then .error "tuple index out of range"
  else if a.shape.getLastD 0 = 1 then squeezeLoop (squeezeLast a)
  else .ok a
termination_by a.shape.length
decreasing_by
  simp only [squeezeLast, List.length_dropLast]
  have := List.length_pos.mpr h
  omega

/-- Step 1 of `convert_to_channel_last` (lines 395-398): move the channel
axis to the last position, or append a new length-1 channel axis when
`channelDim` is `none`. -/
def cclStep1 (a : NArr α) (channelDim : Option ℕ) : NArr α :=
  match channelDim with
  | some c => moveaxisLast a c
  | none => expandLast a

/-- Step 2 of `convert_to_channel_last` (lines 400-404): while the rank is
below `spatialNdim + 1` insert length-1 axes before the channel axis, then
while it is above take the 0th slice of the axis before the channel axis.
`spatialNdim = none` and `spatialNdim = some 0` both skip this step
(Python: `if spatial_ndim:`).  The `while` loops are embedded as iteration
counts computed from the rank, which each body changes by exactly one. -/
def cclStep2 (spatialNdim : Option ℕ) (d1 : NArr α) : NArr α :=
  match spatialNdim with
  | some s =>
    if s = 0 then d1
    else
      let dPad := iterOp insertBeforeLast (s + 1 - d1.shape.length) d1
      iterOp removeBeforeLast (dPad.shape.length - (s + 1)) dPad
  | none => d1

/-- Embedding of `ImageWriter.convert_to_channel_last`
(src/monai/data/image_writer.py lines 394-411). -/
def convertToChannelLast (a : NArr α) (channelDim : Option ℕ)
    (squeezeEndDims : Bool) (spatialNdim : Option ℕ) (contiguous : Bool) :
    Except String (NArr α) :=
  let d2 := cclStep2 spatialNdim (cclStep1 a channelDim)
  (if squeezeEndDims then squeezeLoop d2 else .ok d2).map
    fun d => if contiguous then ascontig d else d

/-- Length of the channel axis selected by `channelDim` (1 for the appended
axis when `channelDim` is `none`). -/
def chLen (a : NArr α) (channelDim : Option ℕ) : ℕ :=
  match channelDim with
  | some c => a.shape.getD c 1
  | none => 1

/-- Row-major flat position of a multi-index (numpy's memory order). -/
def flattenIdx : List ℕ → List ℕ → ℕ
  | _ :: ss, i :: is => i * ss.prod + flattenIdx ss is
  | _, _ => 0

/-- Row-major multi-index of a flat position. -/
def unflattenIdx : List ℕ → ℕ → List ℕ
  | [], _ => []
  | _ :: ss, k => k / ss.prod :: unflattenIdx ss (k % ss.prod)

/-- `np.reshape` (row-major): the element at a new multi-index is the one at
the same flat position of the old layout. -/
def reshapeArr (a : NArr α) (ns : List ℕ) : NArr α :=
  ⟨ns, fun idx => a.get (unflattenIdx a.shape (flattenIdx ns idx))⟩

/-- Matrices of rationals as lists of rows (numpy 2-D arrays of varying
size). -/
abbrev Mat := List (List ℚ)

/-- Matrix product `A @ B`: entry `(i, j)` is the sum over `k` of
`A[i][k] * B[k][j]`. -/
def matMul (A B : Mat) : Mat :=
  A.map fun r => (List.range (B.getD 0 []).length).map fun j =>
    (List.zipWith (fun x row => x * row.getD j 0) r B).sum

/-- Entry access with 0 as the junk value outside the matrix. -/
def entryQ (A : Mat) (i j : ℕ) : ℚ := (A.getD i []).getD j 0

/-- `np.eye(n)`. -/
def eyeMat (n : ℕ) : Mat :=
  (List.range n).map fun i => (List.range n).map fun j => if i = j then 1 else 0

/-- All rows have length equal to the number of rows. -/
def isSquareMat (A : Mat) : Bool := A.all fun r => r.length == A.length

/-- `np.allclose(a, b, atol=AFFINE_TOL)` on `n`-by-`n` matrices (the code
calls it on the rank-padded affines, both of size `(sr+1)`-by-`(sr+1)`);
numpy's default relative tolerance is `rtol = 1e-5`, so the per-entry test
is `|a - b| <= atol + rtol * |b|`. -/
def allcloseN (n : ℕ) (a b : Mat) : Bool :=
  (List.range n).all fun i => (List.range n).all fun j =>
    |entryQ a i j - entryQ b i j| ≤ 1 / 1000 + (1 / 100000) * |entryQ b i j|

/-- The spec's `affinesEqual(a, b, tol=1e-3)` predicate, stated from the
spec's words for the refinement claim C1: same shape and every entry
differs by at most `1e-3` (absolute). -/
def affinesEqualSpec (a b : Mat) : Bool :=
  a.length == b.length &&
    (a.zip b).all fun rr => rr.1.length == rr.2.length &&
      (rr.1.zip rr.2).all fun xy => |xy.1 - xy.2| ≤ 1 / 1000

/-- Modelled from the spec: `padToRank` (`monai.data.utils.to_affine_nd`,
whose body is not under src/) — "expands a smaller affine into a d-dim
homogeneous affine by embedding it in the top-left, filling the rest of the
diagonal with 1 and off-diagonal with 0; if the input already has rank >= d,
truncates symmetrically (drop extra rows/cols before the final homogeneous
row/col)", with the translation column carried along. -/
def toAffineND (r : ℕ) (A : Mat) : Mat :=
  let m := A.length - 1
  let d := min m r
  (List.range (r + 1)).map fun i => (List.range (r + 1)).map fun j =>
    if i < d ∧ j < d then entryQ A i j
    else if i < d ∧ j = r then entryQ A i m
    else if i = j then 1 else 0

/-- Modelled from the spec: `ensure_mat44` (`monai.data.utils`, not under
src/) — the 4-by-4 homogeneous form of an affine ("Volumetric backend:
expects array + 4x4 affine"). -/
def ensureMat44 (A : Mat) : Mat := toAffineND 3 A

/-- External collaborators of `convert_to_target_affine`: the nibabel
orientation routines, `np.linalg.inv`, the opaque resample primitive
(`monai.networks.layers.AffineTransform`), and
`monai.data.utils.compute_shape_offset` (`shapeAndOffsetFromAffines`,
not under src/) — all quantified over in the theorems. -/
structure Externals where
  ioOrient : Mat → Mat
  orntTransform : Mat → Mat → Mat
  applyOrnt : NArr ℚ → Mat → NArr ℚ
  invOrntAff : Mat → List ℕ → Mat
  matInv : Mat → Mat
  resamplePrim : NArr ℚ → Mat → List ℕ → NArr ℚ
  computeShapeOffset : List ℕ → Mat → Mat → List ℕ × Mat

/-- `sr = min(data.ndim, 3)` (line 314). -/
def cttaSr (data : NArr ℚ) : ℕ := min data.shape.length 3

/-- The rank-padded current affine (lines 315-317; identity when absent). -/
def cttaAff (data : NArr ℚ) (affine : Option Mat) : Mat :=
  toAffineND (cttaSr data) (match affine with | some A => A | none => eyeMat 4)

/-- The rank-padded target affine (line 318; defaults to the current
affine). -/
def cttaTgt (data : NArr ℚ) (affine : Option Mat) (target : Option Mat) : Mat :=
  match target with
  | some T => toAffineND (cttaSr data) T
  | none => cttaAff data affine

/-- `nib.orientations.ornt_transform(start_ornt, target_ornt)` (lines
325-327). -/
def cttaOrntT (E : Externals) (data : NArr ℚ) (affine target : Option Mat) : Mat :=
  E.orntTransform (E.ioOrient (cttaAff data affine)) (E.ioOrient (cttaTgt data affine target))

/-- The reoriented data (line 329). -/
def cttaData2 (E : Externals) (data : NArr ℚ) (affine target : Option Mat) : NArr ℚ :=
  E.applyOrnt data (cttaOrntT E data affine target)

/-- `_affine = affine @ nib.orientations.inv_ornt_aff(ornt_transform,
data_shape)` (line 330). -/
def cttaAff2 (E : Externals) (data : NArr ℚ) (affine target : Option Mat) : Mat :=
  matMul (cttaAff data affine) (E.invOrntAff (cttaOrntT E data affine target) data.shape)

/-- Lines 340-341: pad the requested shape with 1s up to `k` entries and
keep only the first `k`. -/
def padTruncShape (k : ℕ) (l : List ℕ) : List ℕ :=
  (l ++ List.replicate (k - l.length) 1).take k

/-- The resampling branch of `convert_to_target_affine` (lines 342-361):
trailing axes beyond the first three are flattened into a leading channel
axis (or a singleton channel is synthesized), a batch axis is added, the
external resample primitive is invoked with `inv(_affine) @ target_affine`,
and the batch/channel bookkeeping is undone.  `dtype` selection (line 335)
is dropped: values are exact rationals here. -/
def cttaResample (E : Externals) (data2 : NArr ℚ) (aff2 tgt : Mat) (s : List ℕ) : NArr ℚ :=
  let originalChannels := data2.shape.drop 3
  let dataNp :=
    if originalChannels = [] then expandFront data2
    else moveLastToFront (reshapeArr data2 (data2.shape.take 3 ++ [originalChannels.prod]))
  let dataT := E.resamplePrim (expandFront dataNp) (matMul (E.matInv aff2) tgt) s
  let dataOut := takeFront0 dataT
  if originalChannels = [] then takeFront0 dataOut
  else reshapeArr (moveFrontToLast dataOut) ((moveFrontToLast dataOut).shape.take 3 ++ originalChannels)

/-- Embedding of `ImageWriter.convert_to_target_affine`
(src/monai/data/image_writer.py lines 251-362), returning the pair
`(data, affine)`. -/
def convertToTargetAffine (E : Externals) (data : NArr ℚ) (affine : Option Mat)
    (targetAffine : Option Mat) (outputSpatialShape : Option (List ℕ)) : NArr ℚ × Mat :=
  let sr := cttaSr data
  let aff := cttaAff data affine
  let tgt := cttaTgt data affine targetAffine
  if allcloseN (sr + 1) aff tgt then (data, ensureMat44 tgt)
  else
    let data2 := cttaData2 E data affine targetAffine
    let aff2 := cttaAff2 E data affine targetAffine
    if allcloseN (sr + 1) aff2 tgt then (data2, ensureMat44 aff2)
    else
      let base := match outputSpatialShape with
        | some l => l
        | none => (E.computeShapeOffset data2.shape aff2 tgt).1
      let spDims := min data2.shape.length 3
      (cttaResample E data2 aff2 tgt (padTruncShape spDims base), ensureMat44 tgt)

/-- `monai.utils.InterpolateMode`. -/
inductive InterpMode where
  | nearest
  | linear
  | bilinear
  | bicubic
  | trilinear
  | area
deriving DecidableEq

/-- Return value of `PILWriter.resample_and_clip`: a float array, or an
unsigned 8-bit or 16-bit integer array after scaling. -/
inductive PILOut where
  | raw : NArr ℚ → PILOut
  | u8 : NArr ℕ → PILOut
  | u16 : NArr ℕ → PILOut

/-- `np.clip(x, lo, hi)` on one value. -/
def clipQ (x lo hi : ℚ) : ℚ := min (max x lo) hi

/-- All valid indices of a shape, in row-major order. -/
def idxList : List ℕ → List (List ℕ)
  | [] => [[]]
  | s :: ss => (List.range s).flatMap fun i => (idxList ss).map fun is => i :: is

/-- All values of an array, at its valid indices. -/
def valuesOf (a : NArr ℚ) : List ℚ := (idxList a.shape).map a.get

/-- `np.min` (junk 0 on an empty array, where numpy raises). -/
def minValQ (a : NArr ℚ) : ℚ :=
  match valuesOf a with
  | [] => 0
  | x :: xs => xs.foldl min x

/-- `np.max` (junk 0 on an empty array, where numpy raises). -/
def maxValQ (a : NArr ℚ) : ℚ :=
  match valuesOf a with
  | [] => 0
  | x :: xs => xs.foldl max x

/-- Line 565: `align_corners = None if mode in (NEAREST, AREA) else False`. -/
def alignFor (mode : InterpMode) : Option Bool :=
  if mode = .nearest ∨ mode = .area then none else some false

/-- Lines 561-562: drop a trailing 1-channel axis before resizing. -/
def preResizeSqueeze (d : NArr ℚ) : NArr ℚ :=
  if d.shape.length = 3 ∧ d.shape.getD 2 0 = 1 then squeezeLast d else d

/-- Lines 568-574: the raw (unclipped) result of the 2-D resize, with the
channel moved to the front for the call (or a synthetic channel added)
and moved back after.  The `Resize` transform itself is external
(`monai.transforms.spatial.array.Resize`), passed in as `resize`. -/
def resizedRaw (resize : ℕ × ℕ → InterpMode → Option Bool → NArr ℚ → NArr ℚ)
    (d : NArr ℚ) (shp : ℕ × ℕ) (mode : InterpMode) : NArr ℚ :=
  let dA := preResizeSqueeze d
  if dA.shape.length = 3 then
    moveFrontToLast (resize shp mode (alignFor mode) (moveLastToFront dA))
  else takeFront0 (resize shp mode (alignFor mode) (expandFront dA))

/-- The state of the data after the optional resize-and-clip stage of
`resample_and_clip` (lines 560-576), just before the scaling stage. -/
def preScale (resize : ℕ × ℕ → InterpMode → Option Bool → NArr ℚ → NArr ℚ)
    (d : NArr ℚ) (oss : Option (ℕ × ℕ)) (mode : InterpMode) : NArr ℚ :=
  match oss with
  | none => d
  | some shp =>
    let dA := preResizeSqueeze d
    let dB := resizedRaw resize d shp mode
    if mode ≠ .nearest then mapVals (fun x => clipQ x (minValQ dA) (maxValQ dA)) dB
    else dB

/-- The `ValueError` message of line 586. -/
def scaleErrMsg (s : ℕ) : String :=
  "Unsupported scale: " ++ toString s ++ ", available options are [255, 65535]"

/-- Apply a rational-to-natural function to every element (the
`astype(np.uint8)` / `astype(np.uint16)` casts). -/
def mapValsNat (f : ℚ → ℕ) (a : NArr ℚ) : NArr ℕ :=
  ⟨a.shape, fun idx => f (a.get idx)⟩

/-- Embedding of `PILWriter.resample_and_clip`
(src/monai/data/image_writer.py lines 546-586).  The target shape is taken
as a pair (`ensure_tuple_rep(output_spatial_shape, 2)` of a 2-sequence is
itself).  `astype` to an unsigned type is a C cast truncating toward zero;
after clipping to `[0, 1]` the scaled values are nonnegative, so it is
`Int.floor`. -/
def resampleAndClip (resize : ℕ × ℕ → InterpMode → Option Bool → NArr ℚ → NArr ℚ)
    (data : NArr ℚ) (oss : Option (ℕ × ℕ)) (mode : InterpMode) (scale : Option ℕ) :
    Except String PILOut :=
  let d1 := preScale resize data oss mode
  match scale with
  | none => .ok (.raw d1)
  | some s =>
    if s = 0 then .ok (.raw d1)
    else
      let d2 := mapVals (fun x => clipQ x 0 1) d1
      if s = 255 then .ok (.u8 (mapValsNat (fun x => (Int.floor ((s : ℚ) * x)).toNat) d2))
      else if s = 65535 then .ok (.u16 (mapValsNat (fun x => (Int.floor ((s : ℚ) * x)).toNat) d2))
      else .error (scaleErrMsg s)

/-- Integer value of a scaled `resample_and_clip` result at one index. -/
def outValN (r : Except String PILOut) (idx : List ℕ) : Option ℕ :=
  match r with
  | .ok (.u8 a) => some (a.get idx)
  | .ok (.u16 a) => some (a.get idx)
  | _ => none

/-- `flip_d = [[-1, 1], [-1, -1, 1], [-1, -1, 1, 1]]` (line 477). -/
def flipD : List (List ℚ) := [[-1, 1], [-1, -1, 1], [-1, -1, 1, 1]]

/-- `flip_diag = flip_d[min(sr - 1, 2)] + [1] * (sr - 3)` (line 478). -/
def flipDiagList (sr : ℕ) : List ℚ :=
  flipD.getD (min (sr - 1) 2) [] ++ List.replicate (sr - 3) 1

/-- Embedding of `ITKWriter.ras_to_lps`
(src/monai/data/image_writer.py lines 467-481) for a square `n`-by-`n`
affine: `sr = max(affine.shape[0] - 1, 1)`, then
`np.diag(flip_diag) @ affine`.  The matrix product requires the flip list
length to equal `n` (numpy raises a shape mismatch otherwise, surfaced
here as `none`). -/
def rasToLps {n : ℕ} (A : Matrix (Fin n) (Fin n) ℚ) : Option (Matrix (Fin n) (Fin n) ℚ) :=
  let fl := flipDiagList (max (n - 1) 1)
  if h : fl.length = n then
    some (Matrix.diagonal (fun i : Fin n => fl.get ⟨i.1, by rw [h]; exact i.isLt⟩) * A)
  else none

/-- `spacing = np.sqrt(np.sum(np.square(affine[:d, :d]), 0))` (line 453):
column-wise Euclidean norms of the linear block. -/
noncomputable def itkSpacingRaw (d : ℕ) (A : Matrix (Fin (d + 1)) (Fin (d + 1)) ℝ)
    (j : Fin d) : ℝ :=
  Real.sqrt (∑ i : Fin d, (A i.castSucc j.castSucc) ^ 2)

/-- `spacing[spacing == 0] = 1.0` (line 454): zero norms replaced by 1. -/
noncomputable def itkSpacing (d : ℕ) (A : Matrix (Fin (d + 1)) (Fin (d + 1)) ℝ)
    (j : Fin d) : ℝ :=
  if itkSpacingRaw d A j = 0 then 1 else itkSpacingRaw d A j

/-- `_direction = affine[:d, :d] @ np.diag(1 / spacing)` (lines 455-456):
the linear block divided column-wise by the spacing. -/
noncomputable def itkDirection (d : ℕ) (A : Matrix (Fin (d + 1)) (Fin (d + 1)) ℝ) :
    Matrix (Fin d) (Fin d) ℝ :=
  (Matrix.of fun i j : Fin d => A i.castSucc j.castSucc) *
    Matrix.diagonal (fun j => 1 / itkSpacing d A j)

/-- `affine[:d, -1]` (line 458): the origin from the translation column. -/
def itkOrigin (d : ℕ) (A : Matrix (Fin (d + 1)) (Fin (d + 1)) ℝ) (i : Fin d) : ℝ :=
  A i.castSucc (Fin.last d)

/-- The diagonal affine of claim C4, with spacing `(1.4, 1, 1, 1)` on the
diagonal. -/
noncomputable def c4Affine : Matrix (Fin 4) (Fin 4) ℝ :=
  Matrix.diagonal ![1.4, 1, 1, 1]

/-- A concrete instantiation of the external collaborators, used in
witnesses (`applyOrnt` preserves the rank like nibabel's
`apply_orientation`). -/
def trivialExternals : Externals where
  ioOrient := fun _ => []
  orntTransform := fun _ _ => []
  applyOrnt := fun a _ => a
  invOrntAff := fun _ _ => eyeMat 2
  matInv := fun m => m
  resamplePrim := fun a _ _ => a
  computeShapeOffset := fun s _ _ => (s, [])

-- ===========================================================================
-- Theorems
-- ===========================================================================

theorem getLastD_irrel {α} (l : List α) (h : l ≠ []) (d d' : α) :
    l.getLastD d = l.getLastD d' := by
  cases l with
  | nil => simp at h
  | cons x xs => simp [List.getLastD]

theorem insertIdx_concat_pred {α} (ys : List α) (y x : α) :
    List.insertIdx ys.length x (ys ++ [y]) = ys ++ [x, y] := by
  induction ys with
  | nil => rfl
  | cons z zs ih => simp [List.insertIdx_succ_cons, ih]

theorem eraseIdx_concat_pred2 {α} (ws : List α) (b y : α) :
    (ws ++ [b, y]).eraseIdx ws.length = ws ++ [y] := by
  induction ws with
  | nil => rfl
  | cons z zs ih => simp [List.eraseIdx_cons_succ, ih]

theorem exists_concat_of_ne_nil {α} (l : List α) (h : l ≠ []) :
    ∃ ys y, l = ys ++ [y] := by
  rcases List.eq_nil_or_concat l with h' | ⟨ys, y, h'⟩
  · exact absurd h' h
  · exact ⟨ys, y, by simpa [List.concat_eq_append] using h'⟩

theorem exists_concat2_of_len {α} (l : List α) (h : 2 ≤ l.length) :
    ∃ ws b y, l = ws ++ [b, y] := by
  obtain ⟨ys, y, rfl⟩ := exists_concat_of_ne_nil l (by intro h'; simp [h'] at h)
  have hys : ys ≠ [] := by intro h'; simp [h'] at h
  obtain ⟨ws, b, rfl⟩ := exists_concat_of_ne_nil ys hys
  exact ⟨ws, b, y, by simp⟩

theorem insertBeforeLast_shape_length {α} (a : NArr α) :
    (insertBeforeLast a).shape.length = a.shape.length + 1 :=
  List.length_insertIdx _ _ (by omega)

theorem insertBeforeLast_ne_nil {α} (a : NArr α) :
    (insertBeforeLast a).shape ≠ [] := by
  have h := insertBeforeLast_shape_length a
  intro hc
  rw [hc] at h
  simp at h

theorem insertBeforeLast_last {α} (a : NArr α) (ha : a.shape ≠ []) (d : ℕ) :
    (insertBeforeLast a).shape.getLastD d = a.shape.getLastD d := by
  obtain ⟨ys, y, hy⟩ := exists_concat_of_ne_nil a.shape ha
  show (List.insertIdx (a.shape.length - 1) 1 a.shape).getLastD d = _
  rw [hy]
  have h1 : (ys ++ [y]).length - 1 = ys.length := by simp
  rw [h1, insertIdx_concat_pred]
  have h2 : ys ++ [1, y] = (ys ++ [1]) ++ [y] := by simp
  rw [h2]
  simp

theorem removeBeforeLast_length {α} (a : NArr α) (h : 2 ≤ a.shape.length) :
    (removeBeforeLast a).shape.length = a.shape.length - 1 := by
  show (a.shape.eraseIdx (a.shape.length - 2)).length = _
  rw [List.length_eraseIdx_of_lt (by omega)]

theorem removeBeforeLast_last {α} (a : NArr α) (h : 2 ≤ a.shape.length) (d : ℕ) :
    (removeBeforeLast a).shape.getLastD d = a.shape.getLastD d := by
  obtain ⟨ws, b, y, hy⟩ := exists_concat2_of_len a.shape h
  show (a.shape.eraseIdx (a.shape.length - 2)).getLastD d = _
  rw [hy]
  have h1 : (ws ++ [b, y]).length - 2 = ws.length := by simp
  have h2 : ws ++ [b, y] = (ws ++ [b]) ++ [y] := by simp
  rw [h1, eraseIdx_concat_pred2, h2]
  simp

theorem iterPad_facts {α} :
    ∀ (k : ℕ) (a : NArr α), a.shape ≠ [] →
      (iterOp insertBeforeLast k a).shape.getLastD 1 = a.shape.getLastD 1 ∧
      (iterOp insertBeforeLast k a).shape.length = a.shape.length + k ∧
      (iterOp insertBeforeLast k a).shape ≠ [] := by
  intro k
  induction k with
  | zero => intro a ha; exact ⟨rfl, rfl, ha⟩
  | succ n ih =>
    intro a ha
    obtain ⟨hl, hlen, hne⟩ := ih (insertBeforeLast a) (insertBeforeLast_ne_nil a)
    refine ⟨?_, ?_, hne⟩
    · rw [iterOp, hl, insertBeforeLast_last a ha]
    · rw [iterOp, hlen, insertBeforeLast_shape_length]; omega

theorem iterTrunc_facts {α} :
    ∀ (k : ℕ) (a : NArr α), k + 2 ≤ a.shape.length →
      (iterOp removeBeforeLast k a).shape.getLastD 1 = a.shape.getLastD 1 ∧
      (iterOp removeBeforeLast k a).shape.length = a.shape.length - k := by
  intro k
  induction k with
  | zero => intro a _; exact ⟨rfl, rfl⟩
  | succ n ih =>
    intro a h
    have h2 : 2 ≤ a.shape.length := by omega
    have hlen := removeBeforeLast_length a h2
    obtain ⟨hl, hlen'⟩ := ih (removeBeforeLast a) (by rw [hlen]; omega)
    constructor
    · rw [iterOp, hl, removeBeforeLast_last a h2]
    · rw [iterOp, hlen', hlen]; omega

theorem cclStep1_facts {α} (a : NArr α) (cD : Option ℕ)
    (hc : ∀ c ∈ cD, c < a.shape.length) :
    (cclStep1 a cD).shape ≠ [] ∧ (cclStep1 a cD).shape.getLastD 1 = chLen a cD := by
  cases cD with
  | none =>
    constructor
    · show a.shape ++ [1] ≠ []; simp
    · show (a.shape ++ [1]).getLastD 1 = 1; simp
  | some c =>
    constructor
    · show a.shape.eraseIdx c ++ [a.shape.getD c 1] ≠ []; simp
    · show (a.shape.eraseIdx c ++ [a.shape.getD c 1]).getLastD 1 = a.shape.getD c 1; simp

theorem cclStep2_facts {α} (sn : Option ℕ) (d1 : NArr α) (h1 : d1.shape ≠ []) :
    (cclStep2 sn d1).shape ≠ [] ∧
    (cclStep2 sn d1).shape.getLastD 1 = d1.shape.getLastD 1 := by
  cases sn with
  | none => exact ⟨h1, rfl⟩
  | some s =>
    by_cases hs : s = 0
    · simp only [cclStep2, hs, if_pos rfl]
      exact ⟨h1, rfl⟩
    · have hgoal : cclStep2 (some s) d1 =
          iterOp removeBeforeLast
            ((iterOp insertBeforeLast (s + 1 - d1.shape.length) d1).shape.length - (s + 1))
            (iterOp insertBeforeLast (s + 1 - d1.shape.length) d1) := by
        simp only [cclStep2, if_neg hs]
      obtain ⟨hpl, hplen, hpne⟩ := iterPad_facts (s + 1 - d1.shape.length) d1 h1
      set dP := iterOp insertBeforeLast (s + 1 - d1.shape.length) d1 with hdP
      by_cases hk2 : dP.shape.length - (s + 1) = 0
      · rw [hgoal, hk2]
        exact ⟨hpne, hpl⟩
      · have hK : (dP.shape.length - (s + 1)) + 2 ≤ dP.shape.length := by omega
        obtain ⟨htl, htlen⟩ := iterTrunc_facts (dP.shape.length - (s + 1)) dP hK
        rw [hgoal]
        constructor
        · have : (iterOp removeBeforeLast (dP.shape.length - (s + 1)) dP).shape.length = s + 1 := by
            rw [htlen]; omega
          intro hcon
          rw [hcon] at this
          simp at this
        · rw [htl, hpl]

theorem squeezeLoop_allOnes_aux {α} :
    ∀ (n : ℕ) (a : NArr α), a.shape.length = n → (∀ x ∈ a.shape, x = 1) →
      squeezeLoop a = .error "tuple index out of range" := by
  intro n
  induction n with
  | zero =>
    intro a hlen _
    rw [squeezeLoop, dif_pos (List.length_eq_zero.mp hlen)]
  | succ k ih =>
    intro a hlen h1
    have hne : a.shape ≠ [] := by intro h; rw [h] at hlen; simp at hlen
    have hlast : a.shape.getLastD 0 = 1 := by
      obtain ⟨ys, y, hy⟩ := exists_concat_of_ne_nil a.shape hne
      rw [hy]
      simp only [List.getLastD_concat]
      exact h1 y (by rw [hy]; simp)
    rw [squeezeLoop, dif_neg hne, if_pos hlast]
    refine ih (squeezeLast a) ?_ ?_
    · show a.shape.dropLast.length = k
      rw [List.length_dropLast, hlen]
      omega
    · intro x hx
      exact h1 x (List.dropLast_subset _ hx)

theorem squeezeLoop_allOnes {α} (a : NArr α) (h1 : ∀ x ∈ a.shape, x = 1) :
    squeezeLoop a = .error "tuple index out of range" :=
  squeezeLoop_allOnes_aux a.shape.length a rfl h1

theorem squeezeLoop_ok_aux {α} :
    ∀ (n : ℕ) (a b : NArr α), a.shape.length ≤ n → squeezeLoop a = .ok b →
      b.shape ≠ [] ∧ b.shape.getLastD 0 ≠ 1 := by
  intro n
  induction n with
  | zero =>
    intro a b hl hok
    have hnil : a.shape = [] := List.length_eq_zero.mp (Nat.le_zero.mp hl)
    rw [squeezeLoop, dif_pos hnil] at hok
    exact absurd hok (by simp)
  | succ k ih =>
    intro a b hl hok
    by_cases hnil : a.shape = []
    · rw [squeezeLoop, dif_pos hnil] at hok
      exact absurd hok (by simp)
    · rw [squeezeLoop, dif_neg hnil] at hok
      by_cases hlast : a.shape.getLastD 0 = 1
      · rw [if_pos hlast] at hok
        have hp := List.length_pos.mpr hnil
        refine ih (squeezeLast a) b ?_ hok
        show a.shape.dropLast.length ≤ k
        rw [List.length_dropLast]; omega
      · rw [if_neg hlast] at hok
        have hab : a = b := by simpa using hok
        rw [← hab]
        exact ⟨hnil, hlast⟩

theorem squeezeLoop_ok_shape {α} (a b : NArr α) (h : squeezeLoop a = .ok b) :
    b.shape ≠ [] ∧ b.shape.getLastD 0 ≠ 1 :=
  squeezeLoop_ok_aux a.shape.length a b le_rfl h

theorem squeezeLoop_of_last_ne {α} (a : NArr α) (h : a.shape ≠ [])
    (h2 : a.shape.getLastD 0 ≠ 1) : squeezeLoop a = .ok a := by
  rw [squeezeLoop, dif_neg h, if_neg h2]

theorem allOnes_cclStep1 {α} (a : NArr α) (cD : Option ℕ)
    (h : ∀ x ∈ a.shape, x = 1) : ∀ x ∈ (cclStep1 a cD).shape, x = 1 := by
  cases cD with
  | none =>
    intro x hx
    rcases List.mem_append.mp hx with h1 | h2
    · exact h x h1
    · simpa using h2
  | some c =>
    intro x hx
    rcases List.mem_append.mp hx with h1 | h2
    · exact h x ((List.eraseIdx_sublist a.shape c).subset h1)
    · have hx2 : x = a.shape.getD c 1 := by simpa using h2
      subst hx2
      by_cases hc : c < a.shape.length
      · rw [List.getD_eq_getElem _ _ hc]
        exact h _ (List.getElem_mem hc)
      · exact List.getD_eq_default _ _ (by omega)

theorem allOnes_iterPad {α} :
    ∀ (k : ℕ) (a : NArr α), (∀ x ∈ a.shape, x = 1) →
      ∀ x ∈ (iterOp insertBeforeLast k a).shape, x = 1 := by
  intro k
  induction k with
  | zero => intro a h; exact h
  | succ n ih =>
    intro a h
    refine ih (insertBeforeLast a) ?_
    intro x hx
    have hx' : x ∈ List.insertIdx (a.shape.length - 1) 1 a.shape := hx
    rcases (List.mem_insertIdx (by omega)).mp hx' with h1 | h2
    · exact h1
    · exact h x h2

theorem allOnes_iterTrunc {α} :
    ∀ (k : ℕ) (a : NArr α), (∀ x ∈ a.shape, x = 1) →
      ∀ x ∈ (iterOp removeBeforeLast k a).shape, x = 1 := by
  intro k
  induction k with
  | zero => intro a h; exact h
  | succ n ih =>
    intro a h
    refine ih (removeBeforeLast a) ?_
    intro x hx
    exact h x ((List.eraseIdx_sublist _ _).subset hx)

theorem allOnes_cclStep2 {α} (sn : Option ℕ) (d1 : NArr α)
    (h : ∀ x ∈ d1.shape, x = 1) : ∀ x ∈ (cclStep2 sn d1).shape, x = 1 := by
  cases sn with
  | none => exact h
  | some s =>
    by_cases hs : s = 0
    · simpa only [cclStep2, hs, if_pos rfl] using h
    · have hgoal : cclStep2 (some s) d1 =
          iterOp removeBeforeLast
            ((iterOp insertBeforeLast (s + 1 - d1.shape.length) d1).shape.length - (s + 1))
            (iterOp insertBeforeLast (s + 1 - d1.shape.length) d1) := by
        simp only [cclStep2, if_neg hs]
      rw [hgoal]
      exact allOnes_iterTrunc _ _ (allOnes_iterPad _ _ h)

/-- C9: on an input whose axes all have length 1, `convert_to_channel_last`
with `squeeze_end_dims=True` squeezes down to rank 0 and the squeeze loop's
read of `data.shape[-1]` then fails with an index error ("tuple index out
of range") instead of returning a result. -/
theorem convert_to_channel_last_all_singleton_index_error {α} (a : NArr α)
    (cD : Option ℕ) (sn : Option ℕ) (cont : Bool)
    (hne : a.shape ≠ []) (h1 : ∀ x ∈ a.shape, x = 1) :
    convertToChannelLast a cD true sn cont = .error "tuple index out of range" := by
  have hall := allOnes_cclStep2 sn _ (allOnes_cclStep1 a cD h1)
  have hsl := squeezeLoop_allOnes _ hall
  show (squeezeLoop (cclStep2 sn (cclStep1 a cD))).map _ = _
  rw [hsl]
  rfl

/-- Witness for C9 at the concrete input of shape `(1,)` with the default
`channel_dim=0`, `spatial_ndim=3`. -/
theorem convert_to_channel_last_all_singleton_index_error_witness :
    convertToChannelLast (⟨[1], fun _ => (0 : ℚ)⟩ : NArr ℚ) (some 0) true (some 3) false =
      .error "tuple index out of range" :=
  convert_to_channel_last_all_singleton_index_error ⟨[1], fun _ => (0 : ℚ)⟩ (some 0) (some 3)
    false (by simp) (by simp)

/-- C5: `toChannelLast` with `channelDim = 0` (in the pure axis-permutation
configuration `squeezeEndDims = false`, `spatialNdim = none`, under which
"restoring the axes to their original order" is defined) moves axis 0 to the
last position, and moving the last axis back to position 0
(`np.moveaxis(out, -1, 0)`) reconstructs the original array exactly, for
every array of rank at least 1. -/
theorem convert_to_channel_last_roundtrip {α} (a : NArr α) (cont : Bool)
    (hne : a.shape ≠ []) :
    convertToChannelLast a (some 0) false none cont = .ok (moveaxisLast a 0) ∧
    Equiv (moveLastToFront (moveaxisLast a 0)) a := by
  constructor
  · show (Except.ok (cclStep2 none (cclStep1 a (some 0)))).map _ = _
    cases cont <;> rfl
  · obtain ⟨x, xs, hx⟩ : ∃ x xs, a.shape = x :: xs := by
      cases h : a.shape with
      | nil => exact absurd h hne
      | cons y ys => exact ⟨y, ys, rfl⟩
    constructor
    · show List.insertIdx 0 ((a.shape.eraseIdx 0 ++ [a.shape.getD 0 1]).getLastD 1)
        (a.shape.eraseIdx 0 ++ [a.shape.getD 0 1]).dropLast = a.shape
      rw [hx]
      simp
    · intro idx hvalid
      have hlen : idx.length = (moveLastToFront (moveaxisLast a 0)).shape.length := by
        simp only [validIdx, Bool.and_eq_true, beq_iff_eq] at hvalid
        exact hvalid.1
      obtain ⟨i, is, rfl⟩ : ∃ i is, idx = i :: is := by
        cases idx with
        | nil =>
          exfalso
          apply hne
          have h2 : (moveLastToFront (moveaxisLast a 0)).shape.length = 0 := by
            rw [← hlen]; rfl
          have h3 : (moveLastToFront (moveaxisLast a 0)).shape.length = a.shape.length := by
            show (List.insertIdx 0 ((a.shape.eraseIdx 0 ++ [a.shape.getD 0 1]).getLastD 1)
              (a.shape.eraseIdx 0 ++ [a.shape.getD 0 1]).dropLast).length = a.shape.length
            rw [hx]
            simp
          rw [h3] at h2
          exact List.length_eq_zero.mp h2
        | cons j js => exact ⟨j, js, rfl⟩
      show a.get (List.insertIdx 0
          (((i :: is).eraseIdx 0 ++ [(i :: is).getD 0 0]).getLastD 0)
          ((i :: is).eraseIdx 0 ++ [(i :: is).getD 0 0]).dropLast) = a.get (i :: is)
      simp

/-- Witness for C5 at a concrete rank-2 array. -/
theorem convert_to_channel_last_roundtrip_witness :
    convertToChannelLast (⟨[2, 3], fun _ => (0 : ℚ)⟩ : NArr ℚ) (some 0) false none true =
        .ok (moveaxisLast ⟨[2, 3], fun _ => (0 : ℚ)⟩ 0) ∧
      Equiv (moveLastToFront (moveaxisLast (⟨[2, 3], fun _ => (0 : ℚ)⟩ : NArr ℚ) 0))
        ⟨[2, 3], fun _ => (0 : ℚ)⟩ :=
  convert_to_channel_last_roundtrip ⟨[2, 3], fun _ => (0 : ℚ)⟩ true (by simp)

/-- C8: `convert_to_channel_last` is a value transform — it is embedded as a
pure function of its input (every numpy operation it performs, `moveaxis`,
basic slicing, `squeeze` and `ascontiguousarray`, returns a view or a copy
and never writes into the input) — and on success the channel axis is the
last axis of the output: the output has at least one axis, and its last
axis has the channel's length unless squeezing removed the channel as a
length-1 axis. -/
theorem convert_to_channel_last_channel_last {α} (a : NArr α) (cD : Option ℕ)
    (sq : Bool) (sn : Option ℕ) (cont : Bool)
    (hc : ∀ c ∈ cD, c < a.shape.length) (out : NArr α)
    (hok : convertToChannelLast a cD sq sn cont = .ok out) :
    out.shape ≠ [] ∧
      (out.shape.getLastD 1 = chLen a cD ∨ (sq = true ∧ chLen a cD = 1)) := by
  obtain ⟨h1ne, h1last⟩ := cclStep1_facts a cD hc
  obtain ⟨h2ne, h2last⟩ := cclStep2_facts sn _ h1ne
  rw [h1last] at h2last
  have hok' : (if sq then squeezeLoop (cclStep2 sn (cclStep1 a cD))
      else .ok (cclStep2 sn (cclStep1 a cD))).map
      (fun d => if cont then ascontig d else d) = .ok out := hok
  cases sq with
  | false =>
    have hout : out = cclStep2 sn (cclStep1 a cD) := by
      cases cont <;> simpa [ascontig, Except.map] using hok'.symm
    rw [hout]
    exact ⟨h2ne, Or.inl h2last⟩
  | true =>
    cases hsl : squeezeLoop (cclStep2 sn (cclStep1 a cD)) with
    | error e =>
      rw [hsl] at hok'
      exact absurd hok' (by simp [Except.map])
    | ok b =>
      rw [hsl] at hok'
      have hout : out = b := by
        cases cont <;> simpa [ascontig, Except.map] using hok'.symm
      by_cases hL : chLen a cD = 1
      · obtain ⟨hbne, _⟩ := squeezeLoop_ok_shape _ _ hsl
        rw [hout]
        exact ⟨hbne, Or.inr ⟨rfl, hL⟩⟩
      · have h20 : (cclStep2 sn (cclStep1 a cD)).shape.getLastD 0 ≠ 1 := by
          rw [getLastD_irrel _ h2ne 0 1, h2last]
          exact hL
        have hid := squeezeLoop_of_last_ne _ h2ne h20
        rw [hid] at hsl
        have hb : b = cclStep2 sn (cclStep1 a cD) := by
          have := hsl
          simp at this
          exact this.symm
        rw [hout, hb]
        exact ⟨h2ne, Or.inl h2last⟩

/-- Witness for C8 at a concrete rank-2 input with `channel_dim=0`,
`squeeze_end_dims=False`, `spatial_ndim=3`. -/
theorem convert_to_channel_last_channel_last_witness :
    ((convertToChannelLast (⟨[2, 3], fun _ => (0 : ℚ)⟩ : NArr ℚ) (some 0) false (some 3)
          false).toOption.getD ⟨[], fun _ => 0⟩).shape ≠ [] ∧
      (((convertToChannelLast (⟨[2, 3], fun _ => (0 : ℚ)⟩ : NArr ℚ) (some 0) false (some 3)
            false).toOption.getD ⟨[], fun _ => 0⟩).shape.getLastD 1 =
          chLen (⟨[2, 3], fun _ => (0 : ℚ)⟩ : NArr ℚ) (some 0) ∨
        (false = true ∧ chLen (⟨[2, 3], fun _ => (0 : ℚ)⟩ : NArr ℚ) (some 0) = 1)) :=
  convert_to_channel_last_channel_last ⟨[2, 3], fun _ => (0 : ℚ)⟩ (some 0) false (some 3) false
    (by simp) _ rfl

theorem flipDiagList_length (sr : ℕ) (h : 1 ≤ sr) :
    (flipDiagList sr).length = sr + 1 := by
  rcases sr with _ | _ | _ | k
  · omega
  · rfl
  · rfl
  · have h2 : min (k + 3 - 1) 2 = 2 := by omega
    simp only [flipDiagList, flipD, h2, List.length_append, List.length_replicate]
    norm_num
    omega

theorem flipDiagList_getD (sr : ℕ) (h : 1 ≤ sr) (i : ℕ) (hi : i < sr + 1) :
    (flipDiagList sr).getD i 0 = if i < min sr 2 then -1 else 1 := by
  rcases sr with _ | _ | _ | k
  · omega
  · interval_cases i <;> norm_num [flipDiagList, flipD]
  · interval_cases i <;> norm_num [flipDiagList, flipD]
  · have h2 : min (k + 3 - 1) 2 = 2 := by omega
    have hmin : min (k + 3) 2 = 2 := by omega
    rw [flipDiagList, h2, hmin]
    by_cases h4 : i < 4
    · interval_cases i <;> norm_num [flipD]
    · have hlt : i - 4 < k := by omega
      have hlen : ((flipD.getD 2 []) : List ℚ).length = 4 := by norm_num [flipD]
      rw [List.getD_append_right _ _ _ _ (by rw [hlen]; omega), hlen]
      have hrep : (List.replicate (k + 1 + 1 + 1 - 3) (1 : ℚ)).getD (i - 4) 0 = 1 := by
        rw [List.getD_eq_getElem _ _ (by simp; omega)]
        simp
      rw [hrep]
      have hnot : ¬ i < 2 := by omega
      simp [hnot]

theorem rasToLps_eq {n : ℕ} (hn : 2 ≤ n) (A : Matrix (Fin n) (Fin n) ℚ) :
    rasToLps A =
      some (Matrix.of fun i j : Fin n =>
        (if (i : ℕ) < min (n - 1) 2 then (-1 : ℚ) else 1) * A i j) := by
  have hsr : max (n - 1) 1 = n - 1 := by omega
  have hlen : (flipDiagList (max (n - 1) 1)).length = n := by
    rw [hsr, flipDiagList_length _ (by omega)]
    omega
  unfold rasToLps
  rw [dif_pos hlen]
  congr 1
  ext i j
  rw [Matrix.diagonal_mul]
  congr 1
  have hget : (flipDiagList (max (n - 1) 1)).get ⟨i.1, by rw [hlen]; exact i.isLt⟩ =
      (flipDiagList (max (n - 1) 1)).getD i.1 0 := by
    rw [List.getD_eq_getElem _ _ (by rw [hlen]; exact i.isLt)]
    simp
  rw [hget, hsr, flipDiagList_getD (n - 1) (by omega) i.1 (by omega)]

/-- C2 counterexample: on the 1D identity affine (a 2-by-2 matrix) the claim
predicts no flipped row, i.e. the identity back, but `ras_to_lps` negates
the single spatial row. -/
theorem ras_to_lps_1d_counterexample :
    rasToLps (1 : Matrix (Fin 2) (Fin 2) ℚ) =
        some (Matrix.of ![![(-1 : ℚ), 0], ![0, 1]]) ∧
      Matrix.of ![![(-1 : ℚ), 0], ![0, 1]] ≠ (1 : Matrix (Fin 2) (Fin 2) ℚ) := by
  constructor
  · rw [rasToLps_eq (le_refl 2) 1]
    congr 1
    ext i j
    fin_cases i <;> fin_cases j <;> norm_num [Matrix.one_apply]
  · intro hcontra
    have := congrFun (congrFun hcontra 0) 0
    norm_num [Matrix.one_apply] at this

/-- C2 (amended): for every square affine of size `n >= 2` with spatial rank
`sr = n - 1`, `ras_to_lps` negates row `i` exactly when `i < min(sr, 2)`:
a 1D affine has its single spatial row negated, a 2D affine has both
spatial rows negated, a 3D affine has its first two spatial rows negated,
and any extra trailing rows are left unflipped. -/
theorem ras_to_lps_flip_pattern {n : ℕ} (hn : 2 ≤ n) (A : Matrix (Fin n) (Fin n) ℚ) :
    ∃ M, rasToLps A = some M ∧
      ∀ i j, M i j = (if (i : ℕ) < min (n - 1) 2 then (-1 : ℚ) else 1) * A i j := by
  refine ⟨_, rasToLps_eq hn A, ?_⟩
  intro i j
  rfl

/-- Witness for the amended C2 at a 3D affine (4-by-4 identity). -/
theorem ras_to_lps_flip_pattern_witness :
    ∃ M, rasToLps (1 : Matrix (Fin 4) (Fin 4) ℚ) = some M ∧
      ∀ i j, M i j = (if (i : ℕ) < min (4 - 1) 2 then (-1 : ℚ) else 1) *
        (1 : Matrix (Fin 4) (Fin 4) ℚ) i j :=
  ras_to_lps_flip_pattern (by norm_num) 1

/-- C10: applying the RAS-to-LPS conversion twice returns the original
matrix exactly, for every square affine of size `n >= 2` (the conversion
left-multiplies by a fixed diagonal matrix of plus/minus-1 entries whose
square is the identity; a 1-by-1 input is not an affine and makes numpy
raise a shape mismatch, `none` here). -/
theorem ras_to_lps_involution {n : ℕ} (hn : 2 ≤ n) (A : Matrix (Fin n) (Fin n) ℚ) :
    (rasToLps A).bind rasToLps = some A := by
  rw [rasToLps_eq hn A, Option.some_bind,
    rasToLps_eq hn (Matrix.of fun i j =>
      (if (i : ℕ) < min (n - 1) 2 then (-1 : ℚ) else 1) * A i j)]
  congr 1
  ext i j
  show (if (i : ℕ) < min (n - 1) 2 then (-1 : ℚ) else 1) *
    ((if (i : ℕ) < min (n - 1) 2 then (-1 : ℚ) else 1) * A i j) = A i j
  by_cases hi : (i : ℕ) < min (n - 1) 2 <;> simp [hi]

/-- Witness for C10 at a concrete 2-by-2 affine. -/
theorem ras_to_lps_involution_witness :
    (rasToLps (Matrix.of ![![(1 : ℚ), 5], ![0, 1]])).bind rasToLps =
      some (Matrix.of ![![(1 : ℚ), 5], ![0, 1]]) :=
  ras_to_lps_involution (le_refl 2) (Matrix.of ![![(1 : ℚ), 5], ![0, 1]])

theorem c4Affine_block (i j : Fin 3) :
    c4Affine i.castSucc j.castSucc =
      if i = j then (![(1.4 : ℝ), 1, 1] : Fin 3 → ℝ) i else 0 := by
  rw [c4Affine, Matrix.diagonal_apply]
  by_cases hij : i = j
  · subst hij
    simp only [if_pos rfl]
    fin_cases i <;> norm_num
  · have hc : i.castSucc ≠ j.castSucc := by simpa [Fin.castSucc_inj] using hij
    simp [hc, hij]

theorem c4_spacing_raw (j : Fin 3) :
    itkSpacingRaw 3 c4Affine j = (![(1.4 : ℝ), 1, 1] : Fin 3 → ℝ) j := by
  have hsum : (∑ i : Fin 3, (c4Affine i.castSucc j.castSucc) ^ 2) =
      (![(1.96 : ℝ), 1, 1] : Fin 3 → ℝ) j := by
    rw [Fin.sum_univ_three, c4Affine_block 0 j, c4Affine_block 1 j, c4Affine_block 2 j]
    fin_cases j <;> simp [Fin.ext_iff] <;> norm_num
  unfold itkSpacingRaw
  rw [hsum]
  fin_cases j
  · show Real.sqrt 1.96 = 1.4
    rw [show (1.96 : ℝ) = 1.4 ^ 2 by norm_num, Real.sqrt_sq (by norm_num)]
  · exact Real.sqrt_one
  · exact Real.sqrt_one

theorem c4_spacing (j : Fin 3) :
    itkSpacing 3 c4Affine j = (![(1.4 : ℝ), 1, 1] : Fin 3 → ℝ) j := by
  unfold itkSpacing
  rw [c4_spacing_raw j]
  fin_cases j <;> norm_num

/-- C4: feeding the diagonal affine `diag(1.4, 1, 1, 1)` through the ITK
geometry decomposition (lines 453-458: spacing as column-wise Euclidean
norms with zero norms replaced by 1, direction as the linear block divided
column-wise by the spacing, origin from the translation column) yields
spacing `(1.4, 1, 1)`, the identity direction cosine matrix, and a zero
origin. -/
theorem itk_geometry_decomposition :
    (∀ j : Fin 3, itkSpacing 3 c4Affine j = (![(1.4 : ℝ), 1, 1] : Fin 3 → ℝ) j) ∧
      itkDirection 3 c4Affine = 1 ∧
      ∀ i : Fin 3, itkOrigin 3 c4Affine i = 0 := by
  refine ⟨c4_spacing, ?_, ?_⟩
  · ext i j
    unfold itkDirection
    rw [Matrix.mul_diagonal, Matrix.of_apply, c4Affine_block i j, c4_spacing j]
    by_cases hij : i = j
    · subst hij
      rw [if_pos rfl, Matrix.one_apply_eq]
      fin_cases i <;> norm_num
    · rw [if_neg hij, Matrix.one_apply_ne hij]
      ring
  · intro i
    unfold itkOrigin
    rw [c4Affine, Matrix.diagonal_apply_ne _ (Fin.castSucc_lt_last i).ne]

/-- C3 counterexample: `scale=0` is "not 255 or 65535" but raises no error
(Python `if not scale:` returns the data unscaled), and `scale=255` on the
value `0.5` yields `127` (`astype` truncates toward zero), not
`round(255 * 0.5) = 128` as the claim states. -/
theorem resample_and_clip_scale_counterexample :
    resampleAndClip (fun _ _ _ a => a) ⟨[1], fun _ => (1 / 2 : ℚ)⟩ none .bicubic (some 0) =
        .ok (.raw ⟨[1], fun _ => (1 / 2 : ℚ)⟩) ∧
      outValN (resampleAndClip (fun _ _ _ a => a) ⟨[1], fun _ => (1 / 2 : ℚ)⟩ none .bicubic
          (some 255)) [0] = some 127 ∧
      (127 : ℕ) ≠ 128 := by
  refine ⟨rfl, ?_, by decide⟩
  show some ((Int.floor (((255 : ℕ) : ℚ) * clipQ (1 / 2) 0 1)).toNat) = some 127
  norm_num [clipQ]
  decide

/-- C3 (amended): in the raster scaling step, every requested scale factor
other than `0`, `255` and `65535` raises a `ValueError` naming the value
(`scale=0`, like `scale=None`, skips scaling entirely); `scale=255` clips
to `[0, 1]` and produces `trunc(255 * x)` (truncation toward zero, i.e.
floor on these nonnegative values) as unsigned 8-bit integers, so data
already in `[0, 1]` maps to `floor(255 * x)` and input `0.5` maps to
`127`. -/
theorem resample_and_clip_scale_behaviour
    (resize : ℕ × ℕ → InterpMode → Option Bool → NArr ℚ → NArr ℚ)
    (d : NArr ℚ) (oss : Option (ℕ × ℕ)) (mode : InterpMode) (s : ℕ) :
    (s ≠ 0 → s ≠ 255 → s ≠ 65535 →
      resampleAndClip resize d oss mode (some s) = .error (scaleErrMsg s)) ∧
    (∃ u, resampleAndClip resize d oss mode (some 255) = .ok (.u8 u) ∧
      u.shape = (preScale resize d oss mode).shape ∧
      ∀ idx, u.get idx =
        (Int.floor (((255 : ℕ) : ℚ) * clipQ ((preScale resize d oss mode).get idx) 0 1)).toNat) ∧
    (∀ x : ℚ, 0 ≤ x → x ≤ 1 → clipQ x 0 1 = x) := by
  refine ⟨?_, ?_, ?_⟩
  · intro h0 h255 h65
    show (if s = 0 then Except.ok (PILOut.raw (preScale resize d oss mode))
      else if s = 255 then _ else if s = 65535 then _ else .error (scaleErrMsg s)) = _
    rw [if_neg h0, if_neg h255, if_neg h65]
  · exact ⟨mapValsNat (fun x => (Int.floor (((255 : ℕ) : ℚ) * x)).toNat)
      (mapVals (fun x => clipQ x 0 1) (preScale resize d oss mode)), rfl, rfl, fun idx => rfl⟩
  · intro x hx0 hx1
    show min (max x 0) 1 = x
    rw [max_eq_left hx0, min_eq_left hx1]

/-- Witness for the amended C3: `scale=100` raises the `ValueError` naming
100. -/
theorem resample_and_clip_scale_behaviour_witness :
    resampleAndClip (fun _ _ _ a => a) ⟨[1], fun _ => (1 / 2 : ℚ)⟩ none .bicubic (some 100) =
      .error (scaleErrMsg 100) :=
  (resample_and_clip_scale_behaviour (fun _ _ _ a => a) ⟨[1], fun _ => (1 / 2 : ℚ)⟩ none
    .bicubic 100).1 (by decide) (by decide) (by decide)

theorem foldl_min_le_init (xs : List ℚ) : ∀ x : ℚ, xs.foldl min x ≤ x := by
  induction xs with
  | nil => intro x; exact le_refl x
  | cons y ys ih =>
    intro x
    calc (y :: ys).foldl min x = ys.foldl min (min x y) := rfl
    _ ≤ min x y := ih (min x y)
    _ ≤ x := min_le_left x y

theorem init_le_foldl_max (xs : List ℚ) : ∀ x : ℚ, x ≤ xs.foldl max x := by
  induction xs with
  | nil => intro x; exact le_refl x
  | cons y ys ih =>
    intro x
    calc x ≤ max x y := le_max_left x y
    _ ≤ ys.foldl max (max x y) := ih (max x y)
    _ = (y :: ys).foldl max x := rfl

theorem minValQ_le_maxValQ (a : NArr ℚ) (h : valuesOf a ≠ []) :
    minValQ a ≤ maxValQ a := by
  unfold minValQ maxValQ
  cases hv : valuesOf a with
  | nil => exact absurd hv h
  | cons x xs =>
    calc xs.foldl min x ≤ x := foldl_min_le_init xs x
    _ ≤ xs.foldl max x := init_le_foldl_max xs x

theorem idxList_ne_nil (shape : List ℕ) (h : ∀ x ∈ shape, 0 < x) :
    idxList shape ≠ [] := by
  induction shape with
  | nil => simp [idxList]
  | cons s ss ih =>
    have hs : 0 < s := h s (by simp)
    have hss : idxList ss ≠ [] := ih fun x hx => h x (by simp [hx])
    obtain ⟨t, ht⟩ : ∃ t, t ∈ idxList ss := by
      cases hq : idxList ss with
      | nil => exact absurd hq hss
      | cons u us => exact ⟨u, by simp [hq]⟩
    have hmem : (0 :: t) ∈ idxList (s :: ss) := by
      show (0 :: t) ∈ (List.range s).flatMap fun i => (idxList ss).map fun is => i :: is
      rw [List.mem_flatMap]
      exact ⟨0, List.mem_range.mpr hs, List.mem_map.mpr ⟨t, ht, rfl⟩⟩
    exact List.ne_nil_of_mem hmem

theorem preResizeSqueeze_pos (d : NArr ℚ) (h : ∀ x ∈ d.shape, 0 < x) :
    ∀ x ∈ (preResizeSqueeze d).shape, 0 < x := by
  unfold preResizeSqueeze
  by_cases hc : d.shape.length = 3 ∧ d.shape.getD 2 0 = 1
  · rw [if_pos hc]
    intro x hx
    exact h x (List.dropLast_subset _ hx)
  · rw [if_neg hc]
    exact h

theorem clipQ_bounds (x lo hi : ℚ) (h : lo ≤ hi) :
    lo ≤ clipQ x lo hi ∧ clipQ x lo hi ≤ hi := by
  unfold clipQ
  constructor
  · exact le_min (le_max_right x lo) h
  · exact min_le_right _ _

/-- C6: in the raster resample-and-clip step with a target 2D shape and no
scaling, for every non-nearest mode the output is re-clipped to the
`(min, max)` value range of the data taken just before resizing; for the
nearest mode the clipping is skipped and the output is the raw resized
data; and the corner-alignment flag passed to the resize transform is
null exactly for the nearest and area modes (and false otherwise). -/
theorem resample_and_clip_resize_clip
    (resize : ℕ × ℕ → InterpMode → Option Bool → NArr ℚ → NArr ℚ)
    (d : NArr ℚ) (shp : ℕ × ℕ) (mode : InterpMode)
    (hpos : ∀ x ∈ d.shape, 0 < x) :
    (mode ≠ .nearest →
      ∃ r, resampleAndClip resize d (some shp) mode none = .ok (.raw r) ∧
        ∀ idx, minValQ (preResizeSqueeze d) ≤ r.get idx ∧
          r.get idx ≤ maxValQ (preResizeSqueeze d)) ∧
    (resampleAndClip resize d (some shp) .nearest none =
      .ok (.raw (resizedRaw resize d shp .nearest))) ∧
    (∀ m : InterpMode, alignFor m = none ↔ (m = .nearest ∨ m = .area)) := by
  have hvne : valuesOf (preResizeSqueeze d) ≠ [] := by
    unfold valuesOf
    intro hcon
    exact idxList_ne_nil _ (preResizeSqueeze_pos d hpos) (List.map_eq_nil.mp hcon)
  have hmm := minValQ_le_maxValQ _ hvne
  refine ⟨?_, ?_, ?_⟩
  · intro hm
    refine ⟨mapVals (fun x => clipQ x (minValQ (preResizeSqueeze d))
        (maxValQ (preResizeSqueeze d))) (resizedRaw resize d shp mode), ?_, ?_⟩
    · show Except.ok (PILOut.raw (if mode ≠ InterpMode.nearest
          then mapVals (fun x => clipQ x (minValQ (preResizeSqueeze d))
            (maxValQ (preResizeSqueeze d))) (resizedRaw resize d shp mode)
          else resizedRaw resize d shp mode)) = _
      rw [if_pos hm]
    · intro idx
      exact clipQ_bounds _ _ _ hmm
  · show Except.ok (PILOut.raw (if InterpMode.nearest ≠ InterpMode.nearest
        then mapVals (fun x => clipQ x (minValQ (preResizeSqueeze d))
          (maxValQ (preResizeSqueeze d))) (resizedRaw resize d shp .nearest)
        else resizedRaw resize d shp .nearest)) = _
    rw [if_neg (by simp)]
  · intro m
    cases m <;> simp [alignFor]

/-- Witness for C6 at a concrete rank-1 array with the bilinear mode. -/
theorem resample_and_clip_resize_clip_witness :
    (InterpMode.bilinear ≠ InterpMode.nearest →
      ∃ r, resampleAndClip (fun _ _ _ a => a) (⟨[2], fun _ => (3 : ℚ)⟩ : NArr ℚ)
          (some (2, 2)) .bilinear none = .ok (.raw r) ∧
        ∀ idx, minValQ (preResizeSqueeze ⟨[2], fun _ => (3 : ℚ)⟩) ≤ r.get idx ∧
          r.get idx ≤ maxValQ (preResizeSqueeze ⟨[2], fun _ => (3 : ℚ)⟩)) ∧
    (resampleAndClip (fun _ _ _ a => a) (⟨[2], fun _ => (3 : ℚ)⟩ : NArr ℚ)
        (some (2, 2)) .nearest none =
      .ok (.raw (resizedRaw (fun _ _ _ a => a) ⟨[2], fun _ => (3 : ℚ)⟩ (2, 2) .nearest))) ∧
    (∀ m : InterpMode, alignFor m = none ↔ (m = .nearest ∨ m = .area)) :=
  resample_and_clip_resize_clip (fun _ _ _ a => a) ⟨[2], fun _ => (3 : ℚ)⟩ (2, 2) .bilinear
    (by simp)

theorem entryQ_tabulate (n : ℕ) (g : ℕ → ℕ → ℚ) (i j : ℕ) (hi : i < n) (hj : j < n) :
    entryQ ((List.range n).map fun i => (List.range n).map fun j => g i j) i j = g i j := by
  unfold entryQ
  rw [List.getD_eq_getElem _ [] (by simpa using hi)]
  rw [List.getElem_map, List.getElem_range]
  rw [List.getD_eq_getElem _ (0 : ℚ) (by simpa using hj)]
  rw [List.getElem_map, List.getElem_range]

theorem toAffineND_entry (r : ℕ) (A : Mat) (i j : ℕ) (hi : i < r + 1) (hj : j < r + 1) :
    entryQ (toAffineND r A) i j =
      if i < min (A.length - 1) r ∧ j < min (A.length - 1) r then entryQ A i j
      else if i < min (A.length - 1) r ∧ j = r then entryQ A i (A.length - 1)
      else if i = j then 1 else 0 :=
  entryQ_tabulate (r + 1) _ i j hi hj

theorem isSquareMat_row (A : Mat) (hs : isSquareMat A = true) (i : ℕ) (hi : i < A.length) :
    (A.getD i []).length = A.length := by
  unfold isSquareMat at hs
  rw [List.all_eq_true] at hs
  have hm := hs (A.getD i []) (by rw [List.getD_eq_getElem _ [] hi]; exact List.getElem_mem hi)
  simpa using hm

theorem affinesEqualSpec_facts (A T : Mat) (h : affinesEqualSpec A T = true) :
    A.length = T.length ∧
    ∀ i, i < A.length → (A.getD i []).length = (T.getD i []).length ∧
      ∀ j, j < (A.getD i []).length → |entryQ A i j - entryQ T i j| ≤ 1 / 1000 := by
  unfold affinesEqualSpec at h
  rw [Bool.and_eq_true] at h
  obtain ⟨h1, h2⟩ := h
  have hlen : A.length = T.length := by simpa using h1
  refine ⟨hlen, ?_⟩
  intro i hi
  have hiT : i < T.length := by omega
  have hzl : i < (A.zip T).length := by rw [List.length_zip]; omega
  rw [List.all_eq_true] at h2
  have hmem : (A.get ⟨i, hi⟩, T.get ⟨i, hiT⟩) ∈ A.zip T := by
    have hmm := List.get_mem (A.zip T) i hzl
    rw [List.get_zip] at hmm
    exact hmm
  have hall := h2 _ hmem
  rw [Bool.and_eq_true] at hall
  obtain ⟨hr1, hr2⟩ := hall
  have hgA : A.getD i [] = A.get ⟨i, hi⟩ := by
    rw [List.getD_eq_getElem A [] hi, List.get_eq_getElem]
  have hgT : T.getD i [] = T.get ⟨i, hiT⟩ := by
    rw [List.getD_eq_getElem T [] hiT, List.get_eq_getElem]
  have hrlen : (A.getD i []).length = (T.getD i []).length := by
    rw [hgA, hgT]
    simpa using hr1
  refine ⟨hrlen, ?_⟩
  intro j hj
  have hjA : j < (A.get ⟨i, hi⟩).length := by rw [← hgA]; exact hj
  have hjT : j < (T.get ⟨i, hiT⟩).length := by
    have hq := hrlen
    rw [hgA, hgT] at hq
    omega
  have hjz : j < ((A.get ⟨i, hi⟩).zip (T.get ⟨i, hiT⟩)).length := by
    rw [List.length_zip]
    omega
  rw [List.all_eq_true] at hr2
  have hmem2 : ((A.get ⟨i, hi⟩).get ⟨j, hjA⟩, (T.get ⟨i, hiT⟩).get ⟨j, hjT⟩) ∈
      (A.get ⟨i, hi⟩).zip (T.get ⟨i, hiT⟩) := by
    have hmm := List.get_mem ((A.get ⟨i, hi⟩).zip (T.get ⟨i, hiT⟩)) j hjz
    rw [List.get_zip] at hmm
    exact hmm
  have hget := of_decide_eq_true (hr2 _ hmem2)
  unfold entryQ
  rw [hgA, hgT, List.getD_eq_getElem _ (0 : ℚ) hjA, List.getD_eq_getElem _ (0 : ℚ) hjT]
  simpa [List.get_eq_getElem] using hget

theorem allcloseN_of_spec (sr : ℕ) (A T : Mat)
    (hsA : isSquareMat A = true) (heq : affinesEqualSpec A T = true) :
    allcloseN (sr + 1) (toAffineND sr A) (toAffineND sr T) = true := by
  obtain ⟨hlen, hrows⟩ := affinesEqualSpec_facts A T heq
  unfold allcloseN
  rw [List.all_eq_true]
  intro i hi
  rw [List.all_eq_true]
  intro j hj
  rw [List.mem_range] at hi hj
  apply decide_eq_true
  rw [toAffineND_entry sr A i j hi hj, toAffineND_entry sr T i j hi hj, ← hlen]
  by_cases h1 : i < min (A.length - 1) sr ∧ j < min (A.length - 1) sr
  · rw [if_pos h1, if_pos h1]
    have hiA : i < A.length := by omega
    obtain ⟨hrl, hent⟩ := hrows i hiA
    have hjr : j < (A.getD i []).length := by
      rw [isSquareMat_row A hsA i hiA]; omega
    have hb := hent j hjr
    have hnn : (0 : ℚ) ≤ |entryQ T i j| := abs_nonneg _
    calc |entryQ A i j - entryQ T i j| ≤ 1 / 1000 := hb
    _ ≤ 1 / 1000 + 1 / 100000 * |entryQ T i j| := by nlinarith
  · rw [if_neg h1, if_neg h1]
    by_cases h2 : i < min (A.length - 1) sr ∧ j = sr
    · rw [if_pos h2, if_pos h2]
      have hiA : i < A.length := by omega
      obtain ⟨hrl, hent⟩ := hrows i hiA
      have hjr : A.length - 1 < (A.getD i []).length := by
        rw [isSquareMat_row A hsA i hiA]; omega
      have hb := hent (A.length - 1) hjr
      have hnn : (0 : ℚ) ≤ |entryQ T i (A.length - 1)| := abs_nonneg _
      calc |entryQ A i (A.length - 1) - entryQ T i (A.length - 1)| ≤ 1 / 1000 := hb
      _ ≤ 1 / 1000 + 1 / 100000 * |entryQ T i (A.length - 1)| := by nlinarith
    · rw [if_neg h2, if_neg h2]
      by_cases hij : i = j
      · rw [if_pos hij]
        norm_num
      · rw [if_neg hij]
        norm_num

/-- C1 counterexample: with 1-D data and `affine = targetAffine =
diag(1, 2, 3, 1)` (entrywise equal, hence within the 1e-3 tolerance), the
fast path is taken and the data is returned unchanged, but the returned
affine is `ensure_mat44(to_affine_nd(1, target))` — the identity 4x4 —
not `targetAffine`. -/
theorem convert_to_target_affine_fast_path_counterexample :
    affinesEqualSpec [[1, 0, 0, 0], [0, 2, 0, 0], [0, 0, 3, 0], [0, 0, 0, 1]]
        [[1, 0, 0, 0], [0, 2, 0, 0], [0, 0, 3, 0], [0, 0, 0, 1]] = true ∧
      (convertToTargetAffine trivialExternals ⟨[1], fun _ => (0 : ℚ)⟩
          (some [[1, 0, 0, 0], [0, 2, 0, 0], [0, 0, 3, 0], [0, 0, 0, 1]])
          (some [[1, 0, 0, 0], [0, 2, 0, 0], [0, 0, 3, 0], [0, 0, 0, 1]]) none).2 ≠
        [[1, 0, 0, 0], [0, 2, 0, 0], [0, 0, 3, 0], [0, 0, 0, 1]] := by
  constructor
  · norm_num [affinesEqualSpec]
  · have hc : allcloseN (cttaSr (⟨[1], fun _ => (0 : ℚ)⟩ : NArr ℚ) + 1)
        (cttaAff ⟨[1], fun _ => (0 : ℚ)⟩
          (some [[1, 0, 0, 0], [0, 2, 0, 0], [0, 0, 3, 0], [0, 0, 0, 1]]))
        (cttaTgt ⟨[1], fun _ => (0 : ℚ)⟩
          (some [[1, 0, 0, 0], [0, 2, 0, 0], [0, 0, 3, 0], [0, 0, 0, 1]])
          (some [[1, 0, 0, 0], [0, 2, 0, 0], [0, 0, 3, 0], [0, 0, 0, 1]])) = true := by
      show allcloseN 2 (toAffineND 1 [[1, 0, 0, 0], [0, 2, 0, 0], [0, 0, 3, 0], [0, 0, 0, 1]])
        (toAffineND 1 [[1, 0, 0, 0], [0, 2, 0, 0], [0, 0, 3, 0], [0, 0, 0, 1]]) = true
      norm_num [allcloseN, toAffineND, entryQ, List.range_succ]
    simp only [convertToTargetAffine, hc, if_true]
    intro hcontra
    have hcc := congrArg (fun M => entryQ M 1 1) hcontra
    norm_num [ensureMat44, toAffineND, entryQ, cttaTgt, cttaSr, cttaAff,
      List.range_succ] at hcc

/-- C1 (amended): for square affines `A` and `T` of the same shape whose
entries each differ by at most the 1e-3 absolute tolerance (the
`affinesEqual` predicate), `convert_to_target_affine` takes the fast path:
the input data is returned bit-identically unchanged, and the output affine
is the 4x4 homogeneous form (`ensure_mat44`) of `T` padded/truncated to the
data's spatial rank `sr = min(ndim, 3)` — equal to `T` itself exactly when
`T` is already the 4x4 homogeneous affine of a rank-3 array. -/
theorem convert_to_target_affine_fast_path (E : Externals) (data : NArr ℚ)
    (A T : Mat) (oss : Option (List ℕ))
    (hsA : isSquareMat A = true) (heq : affinesEqualSpec A T = true) :
    convertToTargetAffine E data (some A) (some T) oss =
      (data, ensureMat44 (toAffineND (cttaSr data) T)) := by
  have hfast : allcloseN (cttaSr data + 1) (cttaAff data (some A))
      (cttaTgt data (some A) (some T)) = true :=
    allcloseN_of_spec (cttaSr data) A T hsA heq
  simp only [convertToTargetAffine, hfast, if_true]
  rfl

/-- Witness for the amended C1 at 2-by-2 identity affines and rank-1
data. -/
theorem convert_to_target_affine_fast_path_witness :
    convertToTargetAffine trivialExternals ⟨[2], fun _ => (0 : ℚ)⟩
        (some [[1, 0], [0, 1]]) (some [[1, 0], [0, 1]]) none =
      (⟨[2], fun _ => (0 : ℚ)⟩,
        ensureMat44 (toAffineND (cttaSr ⟨[2], fun _ => (0 : ℚ)⟩) [[1, 0], [0, 1]])) :=
  convert_to_target_affine_fast_path trivialExternals ⟨[2], fun _ => (0 : ℚ)⟩
    [[1, 0], [0, 1]] [[1, 0], [0, 1]] none (by norm_num [isSquareMat])
    (by norm_num [affinesEqualSpec])

theorem padTruncShape_length (k : ℕ) (l : List ℕ) : (padTruncShape k l).length = k := by
  unfold padTruncShape
  rw [List.length_take, List.length_append, List.length_replicate]
  omega

theorem padTruncShape_getD_lt (k : ℕ) (l : List ℕ) (i : ℕ) (hil : i < l.length) (hik : i < k) :
    (padTruncShape k l).getD i 0 = l.getD i 0 := by
  unfold padTruncShape
  have hlen : i < ((l ++ List.replicate (k - l.length) 1).take k).length := by
    rw [List.length_take, List.length_append, List.length_replicate]
    omega
  rw [List.getD_eq_getElem _ 0 hlen, List.getD_eq_getElem _ 0 hil]
  rw [List.getElem_take]
  exact List.getElem_append_left hil

theorem padTruncShape_getD_ge (k : ℕ) (l : List ℕ) (i : ℕ) (hil : l.length ≤ i) (hik : i < k) :
    (padTruncShape k l).getD i 0 = 1 := by
  unfold padTruncShape
  have hlen : i < ((l ++ List.replicate (k - l.length) 1).take k).length := by
    rw [List.length_take, List.length_append, List.length_replicate]
    omega
  rw [List.getD_eq_getElem _ 0 hlen, List.getElem_take]
  rw [List.getElem_append_right hil]
  exact List.getElem_replicate ..

/-- C7: on the resampling path (both the exact-match and the
orientation-only checks fail), with `sr = min(data.ndim, 3)`: the shape
used for the resample call defaults to the first component of
`compute_shape_offset` when the caller supplies none, and is in every case
padded with 1s up to exactly `sr` entries and truncated to its first `sr`
entries when longer.  (`apply_orientation` preserves the rank, hypothesis
`hOrnt`.) -/
theorem convert_to_target_affine_resample_shape (E : Externals) (data : NArr ℚ)
    (affine target : Option Mat) (oss : Option (List ℕ))
    (hOrnt : ∀ (x : NArr ℚ) (t : Mat), (E.applyOrnt x t).shape.length = x.shape.length)
    (h1 : allcloseN (cttaSr data + 1) (cttaAff data affine)
      (cttaTgt data affine target) = false)
    (h2 : allcloseN (cttaSr data + 1) (cttaAff2 E data affine target)
      (cttaTgt data affine target) = false) :
    ∃ base s,
      base = (match oss with
        | some l => l
        | none => (E.computeShapeOffset (cttaData2 E data affine target).shape
            (cttaAff2 E data affine target) (cttaTgt data affine target)).1) ∧
      s = padTruncShape (cttaSr data) base ∧
      convertToTargetAffine E data affine target oss =
        (cttaResample E (cttaData2 E data affine target) (cttaAff2 E data affine target)
          (cttaTgt data affine target) s,
         ensureMat44 (cttaTgt data affine target)) ∧
      s.length = cttaSr data ∧
      (∀ i, i < base.length → i < cttaSr data → s.getD i 0 = base.getD i 0) ∧
      (∀ i, base.length ≤ i → i < cttaSr data → s.getD i 0 = 1) := by
  refine ⟨_, _, rfl, rfl, ?_, padTruncShape_length _ _, ?_, ?_⟩
  · have hsp : min (cttaData2 E data affine target).shape.length 3 = cttaSr data := by
      show min (E.applyOrnt data (cttaOrntT E data affine target)).shape.length 3 = _
      rw [hOrnt]
      rfl
    simp only [convertToTargetAffine, h1, h2, Bool.false_eq_true, if_false]
    rw [hsp]
  · intro i hib hik
    exact padTruncShape_getD_lt _ _ _ hib hik
  · intro i hib hik
    exact padTruncShape_getD_ge _ _ _ hib hik

/-- Witness for C7 at rank-1 data, far-apart 2-by-2 affines and a
3-entry requested shape (truncated to the single spatial dim). -/
theorem convert_to_target_affine_resample_shape_witness :
    ∃ base s,
      base = [7, 8, 9] ∧
      s = padTruncShape (cttaSr (⟨[2], fun _ => (0 : ℚ)⟩ : NArr ℚ)) base ∧
      convertToTargetAffine trivialExternals ⟨[2], fun _ => (0 : ℚ)⟩
          (some [[1, 0], [0, 1]]) (some [[5, 0], [0, 1]]) (some [7, 8, 9]) =
        (cttaResample trivialExternals
          (cttaData2 trivialExternals ⟨[2], fun _ => (0 : ℚ)⟩ (some [[1, 0], [0, 1]])
            (some [[5, 0], [0, 1]]))
          (cttaAff2 trivialExternals ⟨[2], fun _ => (0 : ℚ)⟩ (some [[1, 0], [0, 1]])
            (some [[5, 0], [0, 1]]))
          (cttaTgt ⟨[2], fun _ => (0 : ℚ)⟩ (some [[1, 0], [0, 1]]) (some [[5, 0], [0, 1]])) s,
         ensureMat44 (cttaTgt ⟨[2], fun _ => (0 : ℚ)⟩ (some [[1, 0], [0, 1]])
           (some [[5, 0], [0, 1]]))) ∧
      s.length = cttaSr (⟨[2], fun _ => (0 : ℚ)⟩ : NArr ℚ) ∧
      (∀ i, i < base.length → i < cttaSr (⟨[2], fun _ => (0 : ℚ)⟩ : NArr ℚ) →
        s.getD i 0 = base.getD i 0) ∧
      (∀ i, base.length ≤ i → i < cttaSr (⟨[2], fun _ => (0 : ℚ)⟩ : NArr ℚ) →
        s.getD i 0 = 1) :=
  convert_to_target_affine_resample_shape trivialExternals ⟨[2], fun _ => (0 : ℚ)⟩
    (some [[1, 0], [0, 1]]) (some [[5, 0], [0, 1]]) (some [7, 8, 9])
    (fun _ _ => rfl)
    (by
      show allcloseN 2 (toAffineND 1 [[1, 0], [0, 1]]) (toAffineND 1 [[5, 0], [0, 1]]) = false
      norm_num [allcloseN, toAffineND, entryQ, List.range_succ])
    (by
      show allcloseN 2 (matMul (toAffineND 1 [[1, 0], [0, 1]]) (eyeMat 2))
        (toAffineND 1 [[5, 0], [0, 1]]) = false
      norm_num [allcloseN, matMul, toAffineND, entryQ, eyeMat, List.range_succ])
